import Mathlib

/-!
Shallow embedding of the enigma_machine repository (src/enigma/encoder.py and
src/enigma/views.py) and proofs about it.

Messages and wiring sequences are Python strings of characters; they are
modelled as `List Char`.  Python integers are modelled as `Int`; for a
positive literal modulus Python's `%` agrees with `Int.emod`, which is what
Lean's `%` on `Int` denotes.  Python list indexing `l[i]` with a
non-negative in-range index is modelled with `List.getD`; every claim
proved below only concerns settings where those indices are in range, so
the `getD` default is never reached there.
-/

/-- The 26 uppercase letters, in order.  `chr(k + 65)` for `k` in `[0,26)`
lands in this list. -/
def alphabet : List Char := "ABCDEFGHIJKLMNOPQRSTUVWXYZ".toList

/-- The 26 lowercase ASCII letters. -/
def lowerAlphabet : List Char := "abcdefghijklmnopqrstuvwxyz".toList

/-- Models the character class `[A-Za-z]` of the compiled regex
`^[A-Za-z]+$` in src/enigma/encoder.py. -/
def isAsciiLetter (c : Char) : Bool :=
  (decide ('A' ≤ c) && decide (c ≤ 'Z')) || (decide ('a' ≤ c) && decide (c ≤ 'z'))

/-- Details about the setting of a specific rotor (dataclass `RotorSetting`
in src/enigma/encoder.py). -/
structure RotorSetting where
  sequence : List Char
  notches : List Char
  offset : Int
deriving Repr, DecidableEq

/-- Settings to encode an enigma message (dataclass `EnigmaSetting` in
src/enigma/encoder.py): rotors left to right, 2-letter plug strings, and
the reflector's connector sequence. -/
structure EnigmaSetting where
  rotors : List RotorSetting
  plugs : List (List Char)
  reflector : List Char
deriving Repr, DecidableEq

/-- Source `_is_encodable` (src/enigma/encoder.py lines 56-60): it tests the
message against `re.match(r'^[A-Za-z]+$', message)`.  In Python's `re`, the
anchor `$` matches at the end of the string and also just before a newline
that sits at the end of the string, so the regex accepts one optional
trailing newline after the run of letters; the model reproduces that by
stripping one trailing newline before requiring a non-empty all-letter
string. -/
def _is_encodable (message : List Char) : Bool :=
  let core := if message.getLast? == some '\n' then message.dropLast else message
  !core.isEmpty && core.all isAsciiLetter

/-- Source `_substitute`, per-character inner loop (src/enigma/encoder.py
lines 73-80): scan the plug list; the first 2-character plug containing the
character swaps it for its partner (`plug[1] if character == plug[0] else
plug[0]`) and the scan stops; plugs whose length is not 2 are skipped.
(The source's `plug is None` guard has no counterpart: a `List Char` is
never `None`.) -/
def substChar (plugs : List (List Char)) (character : Char) : Char :=
  match plugs with
  | [] => character
  | plug :: rest =>
    match plug with
    | [a, b] =>
      if character = a ∨ character = b then
        (if character = a then b else a)
      else substChar rest character
    | _ => substChar rest character

/-- Source `_substitute` (src/enigma/encoder.py lines 63-81), with the plug
list passed directly; this is also the `substitute(message, plugs)` the
views module imports.  (The source's `message is None` guard returning `""`
has no counterpart: a `List Char` is never `None`.) -/
def substitute (message : List Char) (plugs : List (List Char)) : List Char :=
  message.map (substChar plugs)

/-- Source `_substitute` with its original `EnigmaSetting` parameter. -/
def _substitute (message : List Char) (setting : EnigmaSetting) : List Char :=
  substitute message setting.plugs

/-- Source `_char_to_int` (src/enigma/encoder.py lines 84-86):
`ord(character.upper()) - 65`. -/
def _char_to_int (character : Char) : Int :=
  (character.toUpper.toNat : Int) - 65

/-- Source `find_rotor_offset` (src/enigma/encoder.py lines 175-186): index
of the first occurrence of `character` in `sequence`, and `-1` when it does
not occur. -/
def find_rotor_offset (character : Char) (sequence : List Char) : Int :=
  match sequence.findIdx? (fun c => c = character) with
  | some index => (index : Int)
  | none => -1

/-- Source `_reverse_encode_rotor` (src/enigma/encoder.py lines 89-102):
`result` is the index of the first occurrence of `character` in the rotor's
sequence (the loop leaves `result = len(sequence)` when it never occurs,
which is exactly `List.findIdx`), and the returned character is
`chr(((result - rotor.offset + 26) % 26) + 65)`. -/
def _reverse_encode_rotor (character : Char) (rotor : RotorSetting) : Char :=
  Char.ofNat
    (((((rotor.sequence.findIdx (fun c => c = character)) : Int)
        - rotor.offset + 26) % 26).toNat + 65)

/-- One forward step of the loop in `_encode_char` (src/enigma/encoder.py
lines 142-144): `index = (_char_to_int(new_char) + rotor.offset) % 26;
new_char = rotor.sequence[index]`. -/
def forwardRotor (character : Char) (rotor : RotorSetting) : Char :=
  rotor.sequence.getD ((_char_to_int character + rotor.offset) % 26).toNat 'A'

/-- The reflector lookup in `_encode_char` (src/enigma/encoder.py line 147):
`setting.reflector[_char_to_int(new_char)]`. -/
def reflect (reflector : List Char) (character : Char) : Char :=
  reflector.getD (_char_to_int character).toNat 'A'

/-- The forward pass of `_encode_char`: the rotors are traversed reversed
(`setting.rotors[::-1]`), i.e. rightmost first. -/
def forwardPass (rotors : List RotorSetting) (character : Char) : Char :=
  rotors.reverse.foldl forwardRotor character

/-- The reverse pass of `_encode_char`: the rotors are traversed in order
(`setting.rotors`), i.e. leftmost first. -/
def reversePass (rotors : List RotorSetting) (character : Char) : Char :=
  rotors.foldl _reverse_encode_rotor character

/-- Source `_encode_char` (src/enigma/encoder.py lines 133-154): forward
through the rotors right to left, through the reflector, then back through
the rotors left to right. -/
def _encode_char (character : Char) (setting : EnigmaSetting) : Char :=
  reversePass setting.rotors (reflect setting.reflector (forwardPass setting.rotors character))

/-- Notch test inside `_advance_rotors` (src/enigma/encoder.py lines
121-124): some notch letter's position in the rotor's sequence equals the
rotor's current offset. -/
def atNotch (rotor : RotorSetting) : Bool :=
  rotor.notches.any (fun notch => find_rotor_offset notch rotor.sequence == rotor.offset)

/-- The loop of `_advance_rotors` (src/enigma/encoder.py lines 110-128) on
the reversed rotor list (rightmost rotor first, matching
`setting.rotors[::-1]`).  The boolean is `rotate_next_rotor`: it starts
`True`, a rotor is stepped only while it is `True`, and after stepping a
rotor it becomes that rotor's pre-step notch test; once `False` it stays
`False`, so the remaining rotors are returned unchanged. -/
def advanceRev : Bool → List RotorSetting → List RotorSetting
  | _, [] => []
  | false, rotors => rotors
  | true, rotor :: rest =>
      RotorSetting.mk rotor.sequence rotor.notches ((rotor.offset + 1) % 26) ::
        advanceRev (atNotch rotor) rest

/-- Source `_advance_rotors` (src/enigma/encoder.py lines 105-130): the
loop iterates over the reversed rotor list and `insert(0, ...)` rebuilds
the results in the original order, which is the final `reverse` here. -/
def _advance_rotors (setting : EnigmaSetting) : EnigmaSetting :=
  EnigmaSetting.mk ((advanceRev true setting.rotors.reverse).reverse)
    setting.plugs setting.reflector

/-- Source `_rotor_encode` (src/enigma/encoder.py lines 157-172): for each
character, first advance the rotors, then encode the character with the
advanced setting. -/
def _rotor_encode (message : List Char) (setting : EnigmaSetting) : List Char :=
  match message with
  | [] => []
  | character :: rest =>
      let advanced := _advance_rotors setting
      _encode_char character advanced :: _rotor_encode rest advanced

/-- Source `encode` (src/enigma/encoder.py lines 189-210).  `none` models
raising `UnencodableMessageError`; otherwise the upper-cased message goes
through the plug board, the rotors, and the plug board again. -/
def encode (message : List Char) (setting : EnigmaSetting) : Option (List Char) :=
  if !_is_encodable message then none
  else
    some (substitute (_rotor_encode (substitute (message.map Char.toUpper) setting.plugs) setting)
      setting.plugs)

/-- Helper of `EnigmaSetting.with_indicator` (src/enigma/encoder.py lines
41-47): the loop reads `indicator[rotor_index]` for each rotor in turn,
which consumes the indicator letters one per rotor; `none` models the
`IndexError` Python raises when the indicator has fewer letters than there
are rotors.  Letters beyond the rotor count are never read. -/
def withIndicatorRotors : List RotorSetting → List Char → Option (List RotorSetting)
  | [], _ => some []
  | _ :: _, [] => none
  | rotor :: rest, c :: cs =>
      (withIndicatorRotors rest cs).map
        (fun tail => RotorSetting.mk rotor.sequence rotor.notches
          (find_rotor_offset c rotor.sequence) :: tail)

/-- Source `EnigmaSetting.with_indicator` (src/enigma/encoder.py lines
37-48): same rotors and plugs, each rotor's offset recomputed as the
position of the corresponding indicator letter in that rotor's sequence. -/
def with_indicator (setting : EnigmaSetting) (indicator : List Char) : Option EnigmaSetting :=
  (withIndicatorRotors setting.rotors indicator).map
    (fun rotors => EnigmaSetting.mk rotors setting.plugs setting.reflector)

/-- Codebook data dictionary assembled in src/enigma/views.py
(`_get_codebook_setting`): rotor data as (sequence, notches) pairs, plug
settings, the day indicator, and the reflector sequence. -/
structure CodebookData where
  rotor_data : List (List Char × List Char)
  plug_settings : List (List Char)
  day_indicator : List Char
  reflector : List Char
deriving Repr

/-- Modelled from the spec: src/enigma/views.py imports `rotor_encode` from
the encoder module, but the encoder in src/ only defines `_rotor_encode`
with a different signature; the imported four-argument function belongs to
an earlier design iteration that is not under src/.  Per spec sections 4.4
and 4.5, it keys a setting from the indicator — each rotor's offset is the
position of its indicator letter in its wiring sequence, exactly
`find_rotor_offset` as in `with_indicator` — and runs the rotor encoding
(the views code applies the plug board separately, so no plugs here). -/
def rotor_encode (message : List Char) (indicator : List Char)
    (rotor_data : List (List Char × List Char)) (reflector : List Char) : List Char :=
  _rotor_encode message
    (EnigmaSetting.mk
      ((rotor_data.zip indicator).map
        (fun p => RotorSetting.mk p.1.1 p.1.2 (find_rotor_offset p.2 p.1.1)))
      [] reflector)

/-- Source `_decode` (src/enigma/views.py lines 97-124): decode the first
`rotor_count` characters under the day indicator, the next `rotor_count`
under the recovered indicator-indicator, and the rest under the recovered
message-indicator; the plug board follows each rotor pass. -/
def _decode (message : List Char) (codebook_data : CodebookData) : List Char :=
  let rotor_count := codebook_data.rotor_data.length
  let upperMessage := message.map Char.toUpper
  let indicator_indicator :=
    substitute
      (rotor_encode (upperMessage.take rotor_count) codebook_data.day_indicator
        codebook_data.rotor_data codebook_data.reflector)
      codebook_data.plug_settings
  let message_indicator :=
    substitute
      (rotor_encode ((upperMessage.drop rotor_count).take rotor_count) indicator_indicator
        codebook_data.rotor_data codebook_data.reflector)
      codebook_data.plug_settings
  substitute
    (rotor_encode (upperMessage.drop (2 * rotor_count)) message_indicator
      codebook_data.rotor_data codebook_data.reflector)
    codebook_data.plug_settings

/-- Source `_encode` (src/enigma/views.py lines 127-158): the encrypted
indicator-indicator, then the encrypted message-indicator, then the
encrypted body, concatenated with no delimiter.  Each segment goes through
the plug board first and the rotors second; the indicator used to KEY a
segment is passed raw (not upper-cased). -/
def _encode (message indicator_indicator message_indicator : List Char)
    (codebook_data : CodebookData) : List Char :=
  let prefix1 :=
    rotor_encode (substitute (indicator_indicator.map Char.toUpper) codebook_data.plug_settings)
      codebook_data.day_indicator codebook_data.rotor_data codebook_data.reflector
  let prefix2 :=
    rotor_encode (substitute (message_indicator.map Char.toUpper) codebook_data.plug_settings)
      indicator_indicator codebook_data.rotor_data codebook_data.reflector
  let body :=
    rotor_encode (substitute (message.map Char.toUpper) codebook_data.plug_settings)
      message_indicator codebook_data.rotor_data codebook_data.reflector
  prefix1 ++ prefix2 ++ body

/-!  Well-formedness predicates used as hypotheses of the claims. -/

/-- A rotor wiring is a permutation of the 26 uppercase letters. -/
def WFRotor (rotor : RotorSetting) : Prop :=
  rotor.sequence.length = 26 ∧ rotor.sequence.Nodup ∧ ∀ c ∈ rotor.sequence, c ∈ alphabet

/-- A raw wiring sequence (as carried by the views rotor data) is a
permutation of the 26 uppercase letters. -/
def WFSequence (sequence : List Char) : Prop :=
  sequence.length = 26 ∧ sequence.Nodup ∧ ∀ c ∈ sequence, c ∈ alphabet

/-- The reflector is a 26-letter table that is an involution on the
alphabet. -/
def WFReflector (reflector : List Char) : Prop :=
  reflector.length = 26 ∧ (∀ c ∈ reflector, c ∈ alphabet) ∧
    ∀ c ∈ alphabet, reflect reflector (reflect reflector c) = c

/-- Plug pairs as the plugboard-involution claim requires them: each pair
is exactly two characters and no character occurs in two distinct pairs. -/
def PlugPairsOk (plugs : List (List Char)) : Prop :=
  (∀ p ∈ plugs, p.length = 2) ∧ plugs.Pairwise (fun p q => ∀ c, c ∈ p → c ∉ q)

/-- Well-formed plug pairs of a machine setting: additionally, the paired
characters are uppercase letters. -/
def WFPlugs (plugs : List (List Char)) : Prop :=
  (∀ p ∈ plugs, p.length = 2 ∧ ∀ c ∈ p, c ∈ alphabet) ∧
    plugs.Pairwise (fun p q => ∀ c, c ∈ p → c ∉ q)

/-- A fully well-formed machine setting. -/
def WFSetting (setting : EnigmaSetting) : Prop :=
  (∀ r ∈ setting.rotors, WFRotor r) ∧ WFPlugs setting.plugs ∧ WFReflector setting.reflector

/-- A valid alphabetic message in the sense of the claims: non-empty and
consisting solely of ASCII letters of either case. -/
def ValidMessage (message : List Char) : Prop :=
  message ≠ [] ∧ ∀ c ∈ message, c ∈ alphabet ∨ c ∈ lowerAlphabet

instance : DecidablePred WFRotor := fun r => by unfold WFRotor; infer_instance

instance : DecidablePred WFSequence := fun s => by unfold WFSequence; infer_instance

instance : DecidablePred WFReflector := fun r => by unfold WFReflector; infer_instance

instance : DecidablePred PlugPairsOk := fun p => by unfold PlugPairsOk; infer_instance

instance : DecidablePred WFPlugs := fun p => by unfold WFPlugs; infer_instance

instance : DecidablePred WFSetting := fun s => by unfold WFSetting; infer_instance

instance : DecidablePred ValidMessage := fun m => by unfold ValidMessage; infer_instance

/-!  Concrete fixtures used by the claims (taken from the repository's
test suite and the spec's testable properties). -/

/-- An identity rotor: wiring `ABCDEFGHIJKLMNOPQRSTUVWXYZ`, no notches,
offset 0 (src/enigma/tests/test_encoder.py, `test_rotor_encode`). -/
def identityRotor : RotorSetting :=
  RotorSetting.mk alphabet [] 0

/-- The reversing reflector `ZYXWVUTSRQPONMLKJIHGFEDCBA` used throughout
the repository's tests. -/
def reversedAlphabet : List Char := "ZYXWVUTSRQPONMLKJIHGFEDCBA".toList

/-- Two identity rotors, reversing reflector, no plugs: the setting of the
end-to-end reference vector. -/
def identitySetting : EnigmaSetting :=
  EnigmaSetting.mk [identityRotor, identityRotor] [] reversedAlphabet

/-- The two-rotor stepping fixture of the spec's stepping test: left rotor
`ABCDEFGHIJKLMNOPQRSTUVWXYZ` with notch `J`, right rotor
`EKMFLGDQVZNTOWYHXUSPAIBRCJ` with notch `K`, both at offset 0. -/
def steppingSetting : EnigmaSetting :=
  EnigmaSetting.mk
    [RotorSetting.mk alphabet ['J'] 0,
     RotorSetting.mk ("EKMFLGDQVZNTOWYHXUSPAIBRCJ".toList) ['K'] 0]
    [] []

/-- Middle rotor of the three-rotor stepping scenario: identity wiring with
its notch at `A` (sequence position 0) and offset 0, i.e. sitting exactly
at its notch. -/
def midNotchRotor : RotorSetting :=
  RotorSetting.mk alphabet ['A'] 0

/-- Right rotor of the three-rotor stepping scenario: identity wiring with
its notch at `K` (sequence position 10) and offset 0, i.e. not at its
notch. -/
def rightNotchRotor : RotorSetting :=
  RotorSetting.mk alphabet ['K'] 0

/-- Three rotors where the middle one sits at its notch but the rightmost
does not. -/
def threeRotorSetting : EnigmaSetting :=
  EnigmaSetting.mk [identityRotor, midNotchRotor, rightNotchRotor] [] []

/-- A one-rotor setting for the indicator claims. -/
def oneRotorSetting : EnigmaSetting :=
  EnigmaSetting.mk [identityRotor] [] reversedAlphabet

/-- A one-rotor codebook with no plugs, day indicator `A`, identity rotor
and the reversing reflector, for the framed-protocol claims. -/
def identityCodebook : CodebookData :=
  CodebookData.mk [(alphabet, [])] [] ['A'] reversedAlphabet

/-!  Basic facts about the alphabet and character arithmetic. -/

theorem char_to_int_range : ∀ c ∈ alphabet, 0 ≤ _char_to_int c ∧ _char_to_int c < 26 := by
  decide

theorem ofNat_char_to_int : ∀ c ∈ alphabet, Char.ofNat ((_char_to_int c).toNat + 65) = c := by
  decide

theorem toUpper_eq_self : ∀ c ∈ alphabet, c.toUpper = c := by
  decide

theorem toUpper_mem_alphabet : ∀ c : Char, (c ∈ alphabet ∨ c ∈ lowerAlphabet) →
    c.toUpper ∈ alphabet := by
  have h1 : ∀ c ∈ alphabet, c.toUpper ∈ alphabet := by decide
  have h2 : ∀ c ∈ lowerAlphabet, c.toUpper ∈ alphabet := by decide
  rintro c (hc | hc)
  · exact h1 c hc
  · exact h2 c hc

theorem char_to_int_ofNat : ∀ m : Nat, m < 26 → _char_to_int (Char.ofNat (m + 65)) = (m : Int) := by
  intro m hm
  exact (by decide : ∀ m ∈ List.range 26, _char_to_int (Char.ofNat (m + 65)) = (m : Int))
    m (List.mem_range.mpr hm)

theorem ofNat_mem_alphabet : ∀ m : Nat, m < 26 → Char.ofNat (m + 65) ∈ alphabet := by
  intro m hm
  exact (by decide : ∀ m ∈ List.range 26, Char.ofNat (m + 65) ∈ alphabet)
    m (List.mem_range.mpr hm)

/-!  List helpers. -/

theorem getD_mem {l : List Char} {i : Nat} (h : i < l.length) (d : Char) : l.getD i d ∈ l := by
  rw [List.getD_eq_getElem l d h]
  exact List.getElem_mem h

theorem findIdx_beq_getElem_self {l : List Char} (hnd : l.Nodup) {i : Nat} (h : i < l.length) :
    l.findIdx (fun c => c = l[i]) = i := by
  rw [List.findIdx_eq h]
  refine ⟨by simp, fun j hji => ?_⟩
  simp only [decide_eq_false_iff_not]
  intro e
  exact absurd (List.Nodup.getElem_inj_iff hnd |>.mp e) (Nat.ne_of_lt hji)

theorem findIdx_beq_lt_of_mem {l : List Char} {c : Char} (hc : c ∈ l) :
    l.findIdx (fun x => x = c) < l.length :=
  List.findIdx_lt_length.mpr ⟨c, hc, by simp⟩

theorem findIdx_beq_get {l : List Char} {c : Char} (hc : c ∈ l) :
    l.get ⟨l.findIdx (fun x => x = c), findIdx_beq_lt_of_mem hc⟩ = c := by
  have h := @List.findIdx_getElem Char (fun x : Char => decide (x = c)) l
    (findIdx_beq_lt_of_mem hc)
  simpa using h

/-!  Per-rotor facts: the forward and the reverse direction of one rotor
are mutually inverse on the alphabet, for any integer offset. -/

theorem mem_sequence_of_mem_alphabet {r : RotorSetting} (hr : WFRotor r) {c : Char}
    (hc : c ∈ alphabet) : c ∈ r.sequence := by
  have hsub : r.sequence.toFinset ⊆ alphabet.toFinset := by
    intro x hx
    rw [List.mem_toFinset] at hx ⊢
    exact hr.2.2 x hx
  have hcardseq : r.sequence.toFinset.card = 26 := by
    rw [List.toFinset_card_of_nodup hr.2.1]
    exact hr.1
  have hcardal : alphabet.toFinset.card = 26 := by decide
  have heq : r.sequence.toFinset = alphabet.toFinset :=
    Finset.eq_of_subset_of_card_le hsub (by rw [hcardseq, hcardal])
  rw [← List.mem_toFinset, heq, List.mem_toFinset]
  exact hc

theorem forwardRotor_mem {r : RotorSetting} (hr : WFRotor r) (c : Char) :
    forwardRotor c r ∈ r.sequence := by
  unfold forwardRotor
  apply getD_mem
  rw [hr.1]
  omega

theorem forwardRotor_mem_alphabet {r : RotorSetting} (hr : WFRotor r) (c : Char) :
    forwardRotor c r ∈ alphabet :=
  hr.2.2 _ (forwardRotor_mem hr c)

theorem reverse_encode_mem_alphabet (c : Char) (r : RotorSetting) :
    _reverse_encode_rotor c r ∈ alphabet := by
  unfold _reverse_encode_rotor
  apply ofNat_mem_alphabet
  omega

theorem reverse_forward {r : RotorSetting} (hr : WFRotor r) {c : Char} (hc : c ∈ alphabet) :
    _reverse_encode_rotor (forwardRotor c r) r = c := by
  obtain ⟨hk0, hk1⟩ := char_to_int_range c hc
  have h0 : (0 : Int) ≤ (_char_to_int c + r.offset) % 26 := by omega
  have h1 : (_char_to_int c + r.offset) % 26 < 26 := by omega
  have hilen : ((_char_to_int c + r.offset) % 26).toNat < r.sequence.length := by
    rw [hr.1]; omega
  have hfwd : forwardRotor c r = r.sequence[((_char_to_int c + r.offset) % 26).toNat] := by
    unfold forwardRotor
    exact List.getD_eq_getElem _ _ hilen
  unfold _reverse_encode_rotor
  rw [hfwd, findIdx_beq_getElem_self hr.2.1 hilen]
  have hm : (((((_char_to_int c + r.offset) % 26).toNat : Int) - r.offset + 26) % 26).toNat
      = (_char_to_int c).toNat := by omega
  rw [hm]
  exact ofNat_char_to_int c hc

theorem forward_reverse {r : RotorSetting} (hr : WFRotor r) {c : Char} (hc : c ∈ alphabet) :
    forwardRotor (_reverse_encode_rotor c r) r = c := by
  have hcseq : c ∈ r.sequence := mem_sequence_of_mem_alphabet hr hc
  have hplt : r.sequence.findIdx (fun x => x = c) < r.sequence.length :=
    findIdx_beq_lt_of_mem hcseq
  have hpe : r.sequence.get ⟨r.sequence.findIdx (fun x => x = c), hplt⟩ = c :=
    findIdx_beq_get hcseq
  have hp26 : r.sequence.findIdx (fun x => x = c) < 26 := hr.1 ▸ hplt
  have hrev : _reverse_encode_rotor c r =
      Char.ofNat (((((r.sequence.findIdx (fun x => x = c)) : Int)
        - r.offset + 26) % 26).toNat + 65) := rfl
  unfold forwardRotor
  rw [hrev, char_to_int_ofNat _ (by omega)]
  have hidx : ((((((r.sequence.findIdx (fun x => x = c)) : Int)
      - r.offset + 26) % 26).toNat : Int) + r.offset) % 26
      = (r.sequence.findIdx (fun x => x = c) : Int) := by omega
  rw [hidx]
  rw [List.getD_eq_getElem _ _ (by omega : (((r.sequence.findIdx (fun x => x = c)) : Int)).toNat < r.sequence.length)]
  simpa using hpe

/-!  Pass-level facts: the full forward pass and the full reverse pass are
mutually inverse on the alphabet. -/

theorem forwardPass_cons (r : RotorSetting) (rs : List RotorSetting) (c : Char) :
    forwardPass (r :: rs) c = forwardRotor (forwardPass rs c) r := by
  unfold forwardPass
  rw [List.reverse_cons, List.foldl_append]
  rfl

theorem reversePass_cons (r : RotorSetting) (rs : List RotorSetting) (c : Char) :
    reversePass (r :: rs) c = reversePass rs (_reverse_encode_rotor c r) := rfl

theorem forwardPass_mem_alphabet {rs : List RotorSetting} (h : ∀ r ∈ rs, WFRotor r)
    {c : Char} (hc : c ∈ alphabet) : forwardPass rs c ∈ alphabet := by
  induction rs with
  | nil => exact hc
  | cons r rest ih =>
      rw [forwardPass_cons]
      exact forwardRotor_mem_alphabet (h r (List.mem_cons_self r rest)) (forwardPass rest c)

theorem reversePass_mem_alphabet {rs : List RotorSetting} {c : Char} (hc : c ∈ alphabet) :
    reversePass rs c ∈ alphabet := by
  induction rs generalizing c with
  | nil => exact hc
  | cons r rest ih =>
      rw [reversePass_cons]
      exact ih (reverse_encode_mem_alphabet c r)

theorem reversePass_forwardPass {rs : List RotorSetting} (h : ∀ r ∈ rs, WFRotor r)
    {c : Char} (hc : c ∈ alphabet) : reversePass rs (forwardPass rs c) = c := by
  induction rs with
  | nil => rfl
  | cons r rest ih =>
      rw [forwardPass_cons, reversePass_cons]
      rw [reverse_forward (h r (List.mem_cons_self r rest))
        (forwardPass_mem_alphabet (fun x hx => h x (List.mem_cons_of_mem r hx)) hc)]
      exact ih (fun x hx => h x (List.mem_cons_of_mem r hx))

theorem forwardPass_reversePass {rs : List RotorSetting} (h : ∀ r ∈ rs, WFRotor r)
    {c : Char} (hc : c ∈ alphabet) : forwardPass rs (reversePass rs c) = c := by
  induction rs generalizing c with
  | nil => rfl
  | cons r rest ih =>
      rw [reversePass_cons, forwardPass_cons]
      rw [ih (fun x hx => h x (List.mem_cons_of_mem r hx)) (reverse_encode_mem_alphabet c r)]
      exact forward_reverse (h r (List.mem_cons_self r rest)) hc

/-!  Reflector and per-character reciprocity. -/

theorem reflect_mem_alphabet {refl : List Char} (h : WFReflector refl) {c : Char}
    (hc : c ∈ alphabet) : reflect refl c ∈ alphabet := by
  unfold reflect
  apply h.2.1
  apply getD_mem
  obtain ⟨h0, h1⟩ := char_to_int_range c hc
  rw [h.1]
  omega

theorem encode_char_mem_alphabet {s : EnigmaSetting} (hs : WFSetting s) {c : Char}
    (hc : c ∈ alphabet) : _encode_char c s ∈ alphabet := by
  unfold _encode_char
  exact reversePass_mem_alphabet
    (reflect_mem_alphabet hs.2.2 (forwardPass_mem_alphabet hs.1 hc))

theorem encode_char_encode_char {s : EnigmaSetting} (hs : WFSetting s) {c : Char}
    (hc : c ∈ alphabet) : _encode_char (_encode_char c s) s = c := by
  unfold _encode_char
  have hF : forwardPass s.rotors c ∈ alphabet := forwardPass_mem_alphabet hs.1 hc
  have hx : reflect s.reflector (forwardPass s.rotors c) ∈ alphabet :=
    reflect_mem_alphabet hs.2.2 hF
  rw [forwardPass_reversePass hs.1 hx, hs.2.2.2.2 _ hF]
  exact reversePass_forwardPass hs.1 hc

/-!  Stepping preserves the shape of every rotor (sequence and notches) and
therefore preserves well-formedness; it also never touches plugs or
reflector, so a well-formed setting stays well-formed.  This is what makes
the stepping sequence identical in the two runs of a reciprocity pair. -/

theorem advanceRev_shape (b : Bool) (l : List RotorSetting) :
    ∀ r' ∈ advanceRev b l, ∃ r ∈ l, r'.sequence = r.sequence ∧ r'.notches = r.notches ∧
      (r'.offset = r.offset ∨ r'.offset = (r.offset + 1) % 26) := by
  induction l generalizing b with
  | nil =>
      intro r' hr'
      cases b <;> simp [advanceRev] at hr'
  | cons r rest ih =>
      intro r' hr'
      cases b with
      | false =>
          simp only [advanceRev] at hr'
          exact ⟨r', hr', rfl, rfl, Or.inl rfl⟩
      | true =>
          simp only [advanceRev, List.mem_cons] at hr'
          rcases hr' with h | h
          · exact ⟨r, List.mem_cons_self r rest, by rw [h], by rw [h], Or.inr (by rw [h])⟩
          · obtain ⟨x, hx, hseq, hnot, hoff⟩ := ih (atNotch r) r' h
            exact ⟨x, List.mem_cons_of_mem r hx, hseq, hnot, hoff⟩

theorem advance_WF {s : EnigmaSetting} (hs : WFSetting s) : WFSetting (_advance_rotors s) := by
  refine ⟨?_, hs.2.1, hs.2.2⟩
  intro r' hr'
  unfold _advance_rotors at hr'
  simp only [List.mem_reverse] at hr'
  obtain ⟨x, hx, hseq, _, _⟩ := advanceRev_shape true s.rotors.reverse r' hr'
  rw [List.mem_reverse] at hx
  have hwf := hs.1 x hx
  unfold WFRotor at hwf ⊢
  rw [hseq]
  exact hwf

/-!  Message-level rotor encoding: length preservation, alphabet
preservation and reciprocity. -/

theorem rotor_encode_length (m : List Char) (s : EnigmaSetting) :
    (_rotor_encode m s).length = m.length := by
  induction m generalizing s with
  | nil => rfl
  | cons c rest ih =>
      simp only [_rotor_encode, List.length_cons]
      rw [ih]

theorem rotor_encode_mem_alphabet {m : List Char} {s : EnigmaSetting} (hs : WFSetting s)
    (hm : ∀ c ∈ m, c ∈ alphabet) : ∀ c ∈ _rotor_encode m s, c ∈ alphabet := by
  induction m generalizing s with
  | nil => intro c hc; simp [_rotor_encode] at hc
  | cons c rest ih =>
      intro x hx
      simp only [_rotor_encode, List.mem_cons] at hx
      rcases hx with h | h
      · rw [h]
        exact encode_char_mem_alphabet (advance_WF hs) (hm c (List.mem_cons_self c rest))
      · exact ih (advance_WF hs) (fun y hy => hm y (List.mem_cons_of_mem c hy)) x h

theorem rotor_encode_rotor_encode {m : List Char} {s : EnigmaSetting} (hs : WFSetting s)
    (hm : ∀ c ∈ m, c ∈ alphabet) : _rotor_encode (_rotor_encode m s) s = m := by
  induction m generalizing s with
  | nil => rfl
  | cons c rest ih =>
      simp only [_rotor_encode]
      rw [encode_char_encode_char (advance_WF hs) (hm c (List.mem_cons_self c rest))]
      rw [ih (advance_WF hs) (fun y hy => hm y (List.mem_cons_of_mem c hy))]

/-!  Plugboard facts: scanning behaviour, alphabet preservation, and the
involution property for well-formed plug lists. -/

theorem substChar_cons_two (a b : Char) (rest : List (List Char)) (c : Char) :
    substChar ([a, b] :: rest) c =
      if c = a ∨ c = b then (if c = a then b else a) else substChar rest c := rfl

theorem substChar_cons_ne_two {p : List Char} (hp : p.length ≠ 2)
    (rest : List (List Char)) (c : Char) : substChar (p :: rest) c = substChar rest c := by
  rcases p with _ | ⟨a, p⟩
  · rfl
  rcases p with _ | ⟨b, p⟩
  · rfl
  rcases p with _ | ⟨x, p⟩
  · exact absurd rfl hp
  · rfl

theorem WFPlugs_tail {p : List Char} {rest : List (List Char)} (h : WFPlugs (p :: rest)) :
    WFPlugs rest :=
  ⟨fun q hq => h.1 q (List.mem_cons_of_mem p hq), (List.pairwise_cons.mp h.2).2⟩

theorem PlugPairsOk_tail {p : List Char} {rest : List (List Char)} (h : PlugPairsOk (p :: rest)) :
    PlugPairsOk rest :=
  ⟨fun q hq => h.1 q (List.mem_cons_of_mem p hq), (List.pairwise_cons.mp h.2).2⟩

theorem WFPlugs_pairsOk {plugs : List (List Char)} (h : WFPlugs plugs) : PlugPairsOk plugs :=
  ⟨fun p hp => (h.1 p hp).1, h.2⟩

theorem substChar_eq_of_not_mem {plugs : List (List Char)} {c : Char}
    (h : ∀ q ∈ plugs, c ∉ q) : substChar plugs c = c := by
  induction plugs with
  | nil => rfl
  | cons p rest ih =>
      by_cases hp : p.length = 2
      · obtain ⟨a, b, rfl⟩ := List.length_eq_two.mp hp
        have hc : ¬(c = a ∨ c = b) := by
          intro hor
          apply h [a, b] (List.mem_cons_self _ _)
          rcases hor with rfl | rfl
          · exact List.mem_cons_self _ _
          · exact List.mem_cons_of_mem _ (List.mem_cons_self _ _)
        rw [substChar_cons_two, if_neg hc]
        exact ih (fun q hq => h q (List.mem_cons_of_mem _ hq))
      · rw [substChar_cons_ne_two hp]
        exact ih (fun q hq => h q (List.mem_cons_of_mem _ hq))

theorem substChar_eq_or_exists (plugs : List (List Char)) (c : Char) :
    substChar plugs c = c ∨
      ∃ q ∈ plugs, q.length = 2 ∧ c ∈ q ∧ substChar plugs c ∈ q := by
  induction plugs with
  | nil => exact Or.inl rfl
  | cons p rest ih =>
      by_cases hp : p.length = 2
      · obtain ⟨a, b, rfl⟩ := List.length_eq_two.mp hp
        by_cases hc : c = a ∨ c = b
        · refine Or.inr ⟨[a, b], List.mem_cons_self _ _, rfl, ?_, ?_⟩
          · rcases hc with rfl | rfl
            · exact List.mem_cons_self _ _
            · exact List.mem_cons_of_mem _ (List.mem_cons_self _ _)
          · rw [substChar_cons_two, if_pos hc]
            by_cases hca : c = a
            · simp [hca]
            · simp [hca]
        · rw [substChar_cons_two, if_neg hc]
          rcases ih with h | ⟨q, hq, hq2, hcq, hoq⟩
          · exact Or.inl h
          · exact Or.inr ⟨q, List.mem_cons_of_mem _ hq, hq2, hcq, hoq⟩
      · rw [substChar_cons_ne_two hp]
        rcases ih with h | ⟨q, hq, hq2, hcq, hoq⟩
        · exact Or.inl h
        · exact Or.inr ⟨q, List.mem_cons_of_mem _ hq, hq2, hcq, hoq⟩

theorem substChar_mem_alphabet {plugs : List (List Char)} (h : WFPlugs plugs) {c : Char}
    (hc : c ∈ alphabet) : substChar plugs c ∈ alphabet := by
  induction plugs with
  | nil => exact hc
  | cons p rest ih =>
      have hp := h.1 p (List.mem_cons_self p rest)
      obtain ⟨a, b, rfl⟩ := List.length_eq_two.mp hp.1
      have ha : a ∈ alphabet := hp.2 a (List.mem_cons_self _ _)
      have hb : b ∈ alphabet := hp.2 b (List.mem_cons_of_mem _ (List.mem_cons_self _ _))
      rw [substChar_cons_two]
      by_cases hcc : c = a ∨ c = b
      · rw [if_pos hcc]
        by_cases hca : c = a
        · rw [if_pos hca]; exact hb
        · rw [if_neg hca]; exact ha
      · rw [if_neg hcc]
        exact ih (WFPlugs_tail h)

theorem substChar_substChar {plugs : List (List Char)} (h : PlugPairsOk plugs) (c : Char) :
    substChar plugs (substChar plugs c) = c := by
  induction plugs with
  | nil => rfl
  | cons p rest ih =>
      have hp := h.1 p (List.mem_cons_self p rest)
      obtain ⟨a, b, rfl⟩ := List.length_eq_two.mp hp
      by_cases hc : c = a ∨ c = b
      · have hin : substChar ([a, b] :: rest) c = if c = a then b else a := by
          rw [substChar_cons_two, if_pos hc]
        rw [hin]
        by_cases hca : c = a
        · rw [if_pos hca, substChar_cons_two]
          by_cases hba : b = a
          · rw [if_pos (Or.inl hba), if_pos hba, hca, hba]
          · rw [if_pos (Or.inr rfl), if_neg hba, hca]
        · rw [if_neg hca, substChar_cons_two, if_pos (Or.inl rfl), if_pos rfl]
          rcases hc with h' | h'
          · exact absurd h' hca
          · exact h'.symm
      · have hin : substChar ([a, b] :: rest) c = substChar rest c := by
          rw [substChar_cons_two, if_neg hc]
        rw [hin]
        rcases substChar_eq_or_exists rest c with he | ⟨q, hq, _, hcq, hoq⟩
        · rw [he, substChar_cons_two, if_neg hc, he]
        · have hdisj := (List.pairwise_cons.mp h.2).1 q hq
          have hnotab : ¬(substChar rest c = a ∨ substChar rest c = b) := by
            rintro (he | he)
            · exact hdisj a (List.mem_cons_self _ _) (he ▸ hoq)
            · exact hdisj b (List.mem_cons_of_mem _ (List.mem_cons_self _ _)) (he ▸ hoq)
          rw [substChar_cons_two, if_neg hnotab]
          exact ih (PlugPairsOk_tail h)

theorem substitute_length (m : List Char) (plugs : List (List Char)) :
    (substitute m plugs).length = m.length :=
  List.length_map m (substChar plugs)

theorem substitute_mem_alphabet {m : List Char} {plugs : List (List Char)} (h : WFPlugs plugs)
    (hm : ∀ c ∈ m, c ∈ alphabet) : ∀ c ∈ substitute m plugs, c ∈ alphabet := by
  intro c hc
  unfold substitute at hc
  obtain ⟨x, hx, rfl⟩ := List.mem_map.mp hc
  exact substChar_mem_alphabet h (hm x hx)

theorem substitute_substitute {m : List Char} {plugs : List (List Char)} (h : PlugPairsOk plugs) :
    substitute (substitute m plugs) plugs = m := by
  unfold substitute
  rw [List.map_map]
  induction m with
  | nil => rfl
  | cons c rest ih =>
      simp only [List.map_cons, Function.comp_apply, List.cons.injEq]
      exact ⟨substChar_substChar h c, ih⟩

/-!  Valid messages, upper-casing and the validity gate. -/

theorem isAsciiLetter_of_letter : ∀ c : Char, (c ∈ alphabet ∨ c ∈ lowerAlphabet) →
    isAsciiLetter c = true := by
  have h1 : ∀ c ∈ alphabet, isAsciiLetter c = true := by decide
  have h2 : ∀ c ∈ lowerAlphabet, isAsciiLetter c = true := by decide
  rintro c (hc | hc)
  · exact h1 c hc
  · exact h2 c hc

theorem letter_ne_newline : ∀ c : Char, (c ∈ alphabet ∨ c ∈ lowerAlphabet) → c ≠ '\n' := by
  have h1 : ∀ c ∈ alphabet, c ≠ '\n' := by decide
  have h2 : ∀ c ∈ lowerAlphabet, c ≠ '\n' := by decide
  rintro c (hc | hc)
  · exact h1 c hc
  · exact h2 c hc

theorem map_toUpper_eq_self {m : List Char} (hm : ∀ c ∈ m, c ∈ alphabet) :
    m.map Char.toUpper = m := by
  induction m with
  | nil => rfl
  | cons c rest ih =>
      simp only [List.map_cons, List.cons.injEq]
      exact ⟨toUpper_eq_self c (hm c (List.mem_cons_self c rest)),
        ih (fun x hx => hm x (List.mem_cons_of_mem c hx))⟩

theorem map_toUpper_mem_alphabet {m : List Char} (hm : ∀ c ∈ m, c ∈ alphabet ∨ c ∈ lowerAlphabet) :
    ∀ c ∈ m.map Char.toUpper, c ∈ alphabet := by
  intro c hc
  obtain ⟨x, hx, rfl⟩ := List.mem_map.mp hc
  exact toUpper_mem_alphabet x (hm x hx)

theorem is_encodable_of_valid {m : List Char} (hm : ValidMessage m) : _is_encodable m = true := by
  obtain ⟨hne, hall⟩ := hm
  unfold _is_encodable
  have hlast : (m.getLast? == some '\n') = false := by
    cases hl : m.getLast? with
    | none => rfl
    | some c =>
        have hcm : c ∈ m := List.mem_of_mem_getLast? hl
        have := letter_ne_newline c (hall c hcm)
        simp [this]
  rw [hlast]
  simp only [if_neg Bool.false_ne_true, Bool.and_eq_true, Bool.not_eq_true']
  refine ⟨List.isEmpty_eq_false.mpr hne, ?_⟩
  rw [List.all_eq_true]
  exact fun c hc => isAsciiLetter_of_letter c (hall c hc)

/-!  Unfolding lemma for `encode` on accepted messages. -/

theorem encode_eq_some {m : List Char} (s : EnigmaSetting) (h : _is_encodable m = true) :
    encode m s = some (substitute
      (_rotor_encode (substitute (m.map Char.toUpper) s.plugs) s) s.plugs) := by
  unfold encode
  rw [h]
  rfl

theorem encode_eq_none {m : List Char} (s : EnigmaSetting) (h : _is_encodable m = false) :
    encode m s = none := by
  unfold encode
  rw [h]
  rfl

/-- C1 (amended): for every valid alphabetic message `m` (non-empty, ASCII
letters of either case) and every well-formed Setting `s` (each rotor
wiring a permutation of the 26 uppercase letters, reflector a 26-letter
involutive table, plug pairs well-formed with each letter in at most one
pair), running `encode` twice from the same starting Setting returns the
UPPER-CASED message: `encode(encode(m, s), s) = upper(m)`; in particular it
returns `m` itself exactly when `m` is already upper-case.  (The original
claim, with `m` on the right-hand side, fails for lower-case messages
because `encode` upper-cases its input; see the counterexample.) -/
theorem C1_reciprocity_toUpper (m : List Char) (s : EnigmaSetting)
    (hm : ValidMessage m) (hs : WFSetting s) :
    (encode m s).bind (fun c => encode c s) = some (m.map Char.toUpper) := by
  have hu_mem : ∀ c ∈ m.map Char.toUpper, c ∈ alphabet := map_toUpper_mem_alphabet hm.2
  have ht1_mem : ∀ c ∈ substitute (m.map Char.toUpper) s.plugs, c ∈ alphabet :=
    substitute_mem_alphabet hs.2.1 hu_mem
  have ht2_mem : ∀ c ∈ _rotor_encode (substitute (m.map Char.toUpper) s.plugs) s, c ∈ alphabet :=
    rotor_encode_mem_alphabet hs ht1_mem
  have hc1_mem : ∀ c ∈ substitute
      (_rotor_encode (substitute (m.map Char.toUpper) s.plugs) s) s.plugs, c ∈ alphabet :=
    substitute_mem_alphabet hs.2.1 ht2_mem
  set c1 := substitute (_rotor_encode (substitute (m.map Char.toUpper) s.plugs) s) s.plugs
    with hc1
  have h1 : encode m s = some c1 := encode_eq_some s (is_encodable_of_valid hm)
  rw [h1]
  show encode c1 s = some (m.map Char.toUpper)
  have hc1_len : c1.length = m.length := by
    rw [hc1, substitute_length, rotor_encode_length, substitute_length, List.length_map]
  have hc1_ne : c1 ≠ [] := by
    intro he
    rw [he] at hc1_len
    have hm0 : m.length = 0 := by simpa using hc1_len.symm
    exact hm.1 (List.length_eq_zero.mp hm0)
  have h2 : _is_encodable c1 = true :=
    is_encodable_of_valid ⟨hc1_ne, fun c hc => Or.inl (hc1_mem c hc)⟩
  rw [encode_eq_some s h2, map_toUpper_eq_self hc1_mem, hc1,
    substitute_substitute (WFPlugs_pairsOk hs.2.1), rotor_encode_rotor_encode hs ht1_mem,
    substitute_substitute (WFPlugs_pairsOk hs.2.1)]

/-- C1 counterexample: the message `"a"` is a valid alphabetic message and
`identitySetting` is well-formed, yet encoding twice returns `"A"`, not
`"a"`: the claimed `encode(encode(m, s), s) == m` fails for lower-case
messages. -/
theorem C1_counterexample :
    ValidMessage ['a'] ∧ WFSetting identitySetting ∧
      (encode ['a'] identitySetting).bind (fun c => encode c identitySetting) = some ['A'] ∧
      (['A'] : List Char) ≠ ['a'] := by
  refine ⟨by decide, by decide, ?_, by decide⟩
  decide

/-- C1 witness: the amended theorem applied at the concrete message `"A"`
and the identity setting. -/
theorem C1_witness :
    (encode ['A'] identitySetting).bind (fun c => encode c identitySetting) =
      some (['A'].map Char.toUpper) :=
  C1_reciprocity_toUpper ['A'] identitySetting (by decide) (by decide)

/-- C4: the end-to-end reference vector.  With two identity rotors (no
notches, offset 0), the reversing reflector and no plugs, the message
`THEQUICKFOXJUMPSOVERTHELAZYDOG` encodes to
`EOPBVFJZCRGSFLGBDUJUQABSBAZSFL` (the setting is advanced before each
character, so the first character is encoded with the offsets already
advanced once), and encoding the ciphertext from the same start state
returns the original message. -/
theorem C4_reference_vector :
    encode ("THEQUICKFOXJUMPSOVERTHELAZYDOG".toList) identitySetting =
      some ("EOPBVFJZCRGSFLGBDUJUQABSBAZSFL".toList) ∧
    encode ("EOPBVFJZCRGSFLGBDUJUQABSBAZSFL".toList) identitySetting =
      some ("THEQUICKFOXJUMPSOVERTHELAZYDOG".toList) := by
  constructor
  · decide
  · decide

/-- C5 (code bug): `encode` is claimed to fail with `UnencodableMessage`
exactly on messages that are empty or contain a non-letter, but the message
`"AB\n"` contains a newline — not an ASCII letter — and is nevertheless
accepted: Python's `re.match(r'^[A-Za-z]+$', ...)` lets `$` match just
before a trailing newline, so `_is_encodable("AB\n")` is `True` and
`encode` succeeds on it instead of raising. -/
theorem C5_trailing_newline :
    _is_encodable ['A', 'B', '\n'] = true ∧
    isAsciiLetter '\n' = false ∧
    encode ['A', 'B', '\n'] identitySetting ≠ none ∧
    _is_encodable [] = false ∧
    _is_encodable ['A', '1'] = false := by
  refine ⟨by decide, by decide, by decide, by decide, by decide⟩

/-- C8: plugboard involution.  For every message and every plug list whose
pairs are exactly two characters with each character in at most one pair,
substituting twice is the identity; a character contained in no pair passes
through unchanged; and a pair that is not exactly two characters long is
skipped without effect. -/
theorem C8_substitute_involution :
    (∀ (m : List Char) (p : List (List Char)), PlugPairsOk p →
        substitute (substitute m p) p = m) ∧
    (∀ (c : Char) (p : List (List Char)), (∀ q ∈ p, c ∉ q) → substChar p c = c) ∧
    (∀ (m : List Char) (q : List Char) (p : List (List Char)), q.length ≠ 2 →
        substitute m (q :: p) = substitute m p) := by
  refine ⟨fun m p hp => substitute_substitute hp,
    fun c p h => substChar_eq_of_not_mem h, ?_⟩
  intro m q p hq
  unfold substitute
  exact List.map_congr_left (fun c _ => substChar_cons_ne_two hq p c)

/-- C8 witness: the involution applied to the repository's own plug test
(`AE`, `BQ`, `RS` on the full alphabet), plus the two scanning facts at
concrete inputs. -/
theorem C8_witness :
    substitute (substitute ("ABCDEFGHIJKLMNOPQRSTUVWXYZ".toList)
        [['A', 'E'], ['B', 'Q'], ['R', 'S']]) [['A', 'E'], ['B', 'Q'], ['R', 'S']] =
      "ABCDEFGHIJKLMNOPQRSTUVWXYZ".toList ∧
    substChar [['A', 'E'], ['B', 'Q'], ['R', 'S']] 'Z' = 'Z' ∧
    substitute ['A'] (['X', 'Y', 'Z'] :: [['A', 'E']]) = substitute ['A'] [['A', 'E']] :=
  ⟨C8_substitute_involution.1 _ _ (by decide),
   C8_substitute_involution.2.1 'Z' _ (by decide),
   C8_substitute_involution.2.2 ['A'] ['X', 'Y', 'Z'] [['A', 'E']] (by decide)⟩

/-- C10: length preservation.  Whenever `encode` accepts a message, the
ciphertext has exactly as many characters as the message: upper-casing and
plug substitution are per-character maps and the rotor pass emits one
character per input character. -/
theorem C10_length_preservation (m : List Char) (s : EnigmaSetting) (c : List Char)
    (h : encode m s = some c) : c.length = m.length := by
  cases he : _is_encodable m
  · rw [encode_eq_none s he] at h
    exact absurd h (by simp)
  · rw [encode_eq_some s he] at h
    have hc := Option.some.inj h
    rw [← hc, substitute_length, rotor_encode_length, substitute_length, List.length_map]

/-- C10 witness: the length theorem applied to the concrete message `"A"`
encoded under the identity setting. -/
theorem C10_witness :
    encode ['A'] identitySetting = some ['X'] ∧
      (['X'] : List Char).length = (['A'] : List Char).length :=
  ⟨by decide, C10_length_preservation ['A'] identitySetting ['X'] (by decide)⟩

/-!  Indicator re-keying. -/

theorem withIndicatorRotors_none_iff (rotors : List RotorSetting) (ind : List Char) :
    withIndicatorRotors rotors ind = none ↔ ind.length < rotors.length := by
  induction rotors generalizing ind with
  | nil => simp [withIndicatorRotors]
  | cons r rest ih =>
      cases ind with
      | nil => simp [withIndicatorRotors]
      | cons c cs =>
          simp only [withIndicatorRotors, Option.map_eq_none', ih, List.length_cons]
          omega

theorem withIndicatorRotors_some_mem (rotors : List RotorSetting) (ind : List Char)
    (rs' : List RotorSetting) (h : withIndicatorRotors rotors ind = some rs') :
    ∀ r' ∈ rs', ∃ (r : RotorSetting) (c : Char), (r, c) ∈ rotors.zip ind ∧
      r' = RotorSetting.mk r.sequence r.notches (find_rotor_offset c r.sequence) := by
  induction rotors generalizing ind rs' with
  | nil =>
      simp only [withIndicatorRotors, Option.some.injEq] at h
      intro r' hr'
      rw [← h] at hr'
      simp at hr'
  | cons r rest ih =>
      cases ind with
      | nil => simp [withIndicatorRotors] at h
      | cons c cs =>
          simp only [withIndicatorRotors, Option.map_eq_some'] at h
          obtain ⟨tail, htail, rfl⟩ := h
          intro r' hr'
          rcases List.mem_cons.mp hr' with h' | h'
          · exact ⟨r, c, by simp, h'⟩
          · obtain ⟨x, y, hxy, he⟩ := ih cs tail htail r' h'
            exact ⟨x, y, List.mem_cons_of_mem _ hxy, he⟩

theorem find_rotor_offset_range {c : Char} {seq : List Char} (hc : c ∈ seq) :
    0 ≤ find_rotor_offset c seq ∧ find_rotor_offset c seq < (seq.length : Int) := by
  have he : find_rotor_offset c seq = ((seq.findIdx (fun x => x = c) : Nat) : Int) := by
    unfold find_rotor_offset
    rw [List.findIdx?_eq_some_of_exists ⟨c, hc, by simp⟩]
  rw [he]
  have := findIdx_beq_lt_of_mem hc
  constructor
  · exact Int.natCast_nonneg _
  · exact_mod_cast this

/-- C6 (amended): `with_indicator` fails — with Python's `IndexError`, the
encoder defines no `IndicatorLengthMismatch` error — exactly when the
indicator has FEWER letters than there are rotors; an indicator with at
least as many letters as rotors is accepted, the letters beyond the rotor
count being silently ignored.  (The original claim, failure iff length ≠
rotor count, is refuted by the counterexample below.) -/
theorem C6_with_indicator_none_iff (s : EnigmaSetting) (indicator : List Char) :
    with_indicator s indicator = none ↔ indicator.length < s.rotors.length := by
  unfold with_indicator
  rw [Option.map_eq_none']
  exact withIndicatorRotors_none_iff s.rotors indicator

/-- C6 counterexample: a one-rotor setting accepts the two-letter indicator
`"AB"` (producing a re-keyed setting) even though 2 ≠ 1, so `with_indicator`
does not fail whenever the indicator length differs from the rotor count. -/
theorem C6_counterexample :
    (['A', 'B'] : List Char).length ≠ oneRotorSetting.rotors.length ∧
    with_indicator oneRotorSetting ['A', 'B'] =
      some (EnigmaSetting.mk [RotorSetting.mk alphabet [] 0] [] reversedAlphabet) := by
  refine ⟨by decide, by decide⟩

/-!  The stepping characterization. -/

theorem advanceRev_length (b : Bool) (l : List RotorSetting) :
    (advanceRev b l).length = l.length := by
  induction l generalizing b with
  | nil => cases b <;> rfl
  | cons r rest ih =>
      cases b with
      | false => rfl
      | true => simp only [advanceRev, List.length_cons, ih]

theorem advanceRev_getElem? (l : List RotorSetting) (b : Bool) (i : Nat) :
    (advanceRev b l)[i]? = (l[i]?).map
      (fun r => if b && (l.take i).all atNotch then
        RotorSetting.mk r.sequence r.notches ((r.offset + 1) % 26) else r) := by
  induction l generalizing b i with
  | nil => cases b <;> simp [advanceRev]
  | cons r rest ih =>
      cases b with
      | false =>
          simp only [advanceRev, Bool.false_and, Bool.false_eq_true, if_false]
          cases h : (r :: rest)[i]? <;> simp [h]
      | true =>
          cases i with
          | zero => simp [advanceRev]
          | succ i =>
              simp only [advanceRev, List.getElem?_cons_succ, ih, List.take_succ_cons,
                List.all_cons, Bool.true_and]

theorem advance_rotors_getElem? (s : EnigmaSetting) (i : Nat) (r : RotorSetting)
    (h : s.rotors[i]? = some r) :
    (_advance_rotors s).rotors[i]? = some (RotorSetting.mk r.sequence r.notches
      (if (s.rotors.drop (i + 1)).all atNotch then (r.offset + 1) % 26 else r.offset)) := by
  have hi : i < s.rotors.length := (List.getElem?_eq_some.mp h).1
  show ((advanceRev true s.rotors.reverse).reverse)[i]? = _
  have hlen : (advanceRev true s.rotors.reverse).length = s.rotors.length := by
    rw [advanceRev_length, List.length_reverse]
  rw [List.getElem?_reverse (by rw [hlen]; exact hi), hlen]
  rw [advanceRev_getElem?]
  have h2 : s.rotors.reverse[s.rotors.length - 1 - i]? = s.rotors[i]? := by
    rw [List.getElem?_reverse (show s.rotors.length - 1 - i < s.rotors.length by omega)]
    congr 1
    omega
  rw [h2, h]
  have h3 : s.rotors.reverse.take (s.rotors.length - 1 - i) = (s.rotors.drop (i + 1)).reverse := by
    rw [List.take_reverse]
    congr 2
    omega
  rw [Option.map_some', Bool.true_and, h3, List.all_reverse]
  cases hcond : (s.rotors.drop (i + 1)).all atNotch <;> simp [hcond]

/-- C3 (amended): one `advance` call leaves plugs, reflector and every
rotor's sequence and notches unchanged, and updates offsets as follows: a
rotor's offset increases by one modulo 26 if and only if EVERY rotor
strictly to its right was, before stepping, at an offset equal to the
position of one of its notch letters in its own wiring sequence (for the
rightmost rotor the condition is vacuous, so it always advances);
otherwise the offset is unchanged.  Equivalently, a rotor advances iff its
right neighbour advanced and sat at its notch — the carry is a chain, not
the pairwise iff of the original claim, which fails once a rotor sits at
its notch while the rotor to ITS right does not advance (see the
counterexample).  The spec's two-rotor stepping test holds as stated:
offsets [0, 1] after one advance and [1, 2] after two. -/
theorem C3_advance_characterization :
    (∀ (s : EnigmaSetting) (i : Nat) (r : RotorSetting), s.rotors[i]? = some r →
      (_advance_rotors s).rotors[i]? = some (RotorSetting.mk r.sequence r.notches
        (if (s.rotors.drop (i + 1)).all atNotch then (r.offset + 1) % 26 else r.offset))) ∧
    (_advance_rotors steppingSetting).rotors.map (fun r => r.offset) = [0, 1] ∧
    (_advance_rotors (_advance_rotors steppingSetting)).rotors.map (fun r => r.offset) = [1, 2] := by
  refine ⟨advance_rotors_getElem?, by decide, by decide⟩

/-- C3 counterexample: three rotors, the middle one sitting at its notch,
the rightmost one not.  The original claim ("a rotor advances iff the rotor
immediately to its right was at one of its notch positions before
stepping") requires the left rotor to advance to offset 1; the code leaves
it at 0 because the carry signal dies at the rightmost rotor, which is not
at its notch. -/
theorem C3_counterexample :
    atNotch midNotchRotor = true ∧ atNotch rightNotchRotor = false ∧
    threeRotorSetting.rotors.map (fun r => r.offset) = [0, 0, 0] ∧
    (_advance_rotors threeRotorSetting).rotors.map (fun r => r.offset) = [0, 0, 1] ∧
    ((0 : Int) ≠ (0 + 1) % 26) := by
  refine ⟨by decide, by decide, by decide, by decide, by decide⟩

/-- C3 witness: the characterization applied to the right rotor of the
spec's two-rotor stepping fixture — it advances from offset 0 to 1. -/
theorem C3_witness :
    (_advance_rotors steppingSetting).rotors[1]? =
      some (RotorSetting.mk ("EKMFLGDQVZNTOWYHXUSPAIBRCJ".toList) ['K'] 1) := by
  have h := C3_advance_characterization.1 steppingSetting 1
    (RotorSetting.mk ("EKMFLGDQVZNTOWYHXUSPAIBRCJ".toList) ['K'] 0) (by decide)
  rw [h]
  decide

/-- C9 (amended): `advance` maps a setting whose offsets are all in
`[0, 26)` to a setting whose offsets are all in `[0, 26)`; and
`with_indicator` produces offsets in `[0, 26)` for every setting and
indicator it accepts PROVIDED each consumed indicator letter occurs in the
corresponding rotor's wiring sequence and that sequence has at most 26
entries — an indicator letter absent from the sequence produces offset
`-1` (see the counterexample), which the original claim excludes. -/
theorem C9_offset_range :
    (∀ s : EnigmaSetting, (∀ r ∈ s.rotors, 0 ≤ r.offset ∧ r.offset < 26) →
        ∀ r' ∈ (_advance_rotors s).rotors, 0 ≤ r'.offset ∧ r'.offset < 26) ∧
    (∀ (s s' : EnigmaSetting) (ind : List Char), with_indicator s ind = some s' →
        (∀ r ∈ s.rotors, r.sequence.length ≤ 26) →
        (∀ p ∈ s.rotors.zip ind, p.2 ∈ p.1.sequence) →
        ∀ r' ∈ s'.rotors, 0 ≤ r'.offset ∧ r'.offset < 26) := by
  constructor
  · intro s hs r' hr'
    have hr'' : r' ∈ advanceRev true s.rotors.reverse := by
      have : (_advance_rotors s).rotors = (advanceRev true s.rotors.reverse).reverse := rfl
      rw [this, List.mem_reverse] at hr'
      exact hr'
    obtain ⟨x, hx, _, _, hoff⟩ := advanceRev_shape true s.rotors.reverse r' hr''
    rw [List.mem_reverse] at hx
    rcases hoff with h | h
    · rw [h]; exact hs x hx
    · rw [h]; omega
  · intro s s' ind hsome hlen hmem r' hr'
    unfold with_indicator at hsome
    rw [Option.map_eq_some'] at hsome
    obtain ⟨rotors', hrot, rfl⟩ := hsome
    obtain ⟨x, y, hxy, rfl⟩ := withIndicatorRotors_some_mem s.rotors ind rotors' hrot r' hr'
    show 0 ≤ find_rotor_offset y x.sequence ∧ find_rotor_offset y x.sequence < 26
    have hy : y ∈ x.sequence := hmem (x, y) hxy
    have hx : x ∈ s.rotors := (List.of_mem_zip hxy).1
    obtain ⟨h0, h1⟩ := find_rotor_offset_range hy
    have := hlen x hx
    refine ⟨h0, ?_⟩
    have : (x.sequence.length : Int) ≤ 26 := by exact_mod_cast this
    omega

/-- C9 counterexample: a digit indicator letter is accepted by
`with_indicator` but, being absent from the rotor's wiring, yields offset
`-1`, outside `[0, 26)`. -/
theorem C9_counterexample :
    with_indicator oneRotorSetting ['1'] =
      some (EnigmaSetting.mk [RotorSetting.mk alphabet [] (-1)] [] reversedAlphabet) ∧
    ¬(0 ≤ (-1 : Int) ∧ (-1 : Int) < 26) := by
  refine ⟨by decide, by decide⟩

/-- C9 witness: both parts applied at concrete inputs — the stepping
fixture for `advance`, and the one-rotor setting re-keyed with the
indicator `"A"`. -/
theorem C9_witness :
    (∀ r' ∈ (_advance_rotors steppingSetting).rotors, 0 ≤ r'.offset ∧ r'.offset < 26) ∧
    (∀ r' ∈ (EnigmaSetting.mk [RotorSetting.mk alphabet [] 0] [] reversedAlphabet).rotors,
        0 ≤ r'.offset ∧ r'.offset < 26) :=
  ⟨C9_offset_range.1 steppingSetting (by decide),
   C9_offset_range.2 oneRotorSetting
     (EnigmaSetting.mk [RotorSetting.mk alphabet [] 0] [] reversedAlphabet) ['A']
     (by decide) (by decide) (by decide)⟩

/-!  The indicator-keyed setting built inside `rotor_encode` is well-formed
whenever the rotor catalog data is, for ANY indicator: the claims below
never need the indicator letters to occur in the wirings, because the
whole rotor pipeline is reciprocal for arbitrary integer offsets. -/

theorem rotor_encode_WF {rd : List (List Char × List Char)} {refl : List Char}
    (hrd : ∀ p ∈ rd, WFSequence p.1) (hrefl : WFReflector refl) (ind : List Char) :
    WFSetting (EnigmaSetting.mk
      ((rd.zip ind).map (fun p => RotorSetting.mk p.1.1 p.1.2 (find_rotor_offset p.2 p.1.1)))
      [] refl) := by
  refine ⟨?_, ⟨fun p hp => absurd hp (List.not_mem_nil p), List.Pairwise.nil⟩, hrefl⟩
  intro r' hr'
  obtain ⟨p, hp, rfl⟩ := List.mem_map.mp hr'
  exact hrd p.1 (List.of_mem_zip hp).1

theorem rotor_encode_mem_keyed {rd : List (List Char × List Char)} {refl : List Char}
    (hrd : ∀ p ∈ rd, WFSequence p.1) (hrefl : WFReflector refl) {m : List Char}
    (ind : List Char) (hm : ∀ c ∈ m, c ∈ alphabet) :
    ∀ c ∈ rotor_encode m ind rd refl, c ∈ alphabet :=
  rotor_encode_mem_alphabet (rotor_encode_WF hrd hrefl ind) hm

theorem rotor_encode_roundtrip {rd : List (List Char × List Char)} {refl : List Char}
    (hrd : ∀ p ∈ rd, WFSequence p.1) (hrefl : WFReflector refl) {m : List Char}
    (ind : List Char) (hm : ∀ c ∈ m, c ∈ alphabet) :
    rotor_encode (rotor_encode m ind rd refl) ind rd refl = m :=
  rotor_encode_rotor_encode (rotor_encode_WF hrd hrefl ind) hm

theorem rotor_encode_len (m ind : List Char) (rd : List (List Char × List Char))
    (refl : List Char) : (rotor_encode m ind rd refl).length = m.length :=
  rotor_encode_length m _

/-!  Definitional reshaping of the views encode/decode pipelines (their
`let` chains written out). -/

theorem _decode_eq (message : List Char) (cb : CodebookData) :
    _decode message cb =
      substitute
        (rotor_encode ((message.map Char.toUpper).drop (2 * cb.rotor_data.length))
          (substitute
            (rotor_encode (((message.map Char.toUpper).drop cb.rotor_data.length).take
                cb.rotor_data.length)
              (substitute
                (rotor_encode ((message.map Char.toUpper).take cb.rotor_data.length)
                  cb.day_indicator cb.rotor_data cb.reflector)
                cb.plug_settings)
              cb.rotor_data cb.reflector)
            cb.plug_settings)
          cb.rotor_data cb.reflector)
        cb.plug_settings := rfl

theorem _encode_eq (m ii mi : List Char) (cb : CodebookData) :
    _encode m ii mi cb =
      rotor_encode (substitute (ii.map Char.toUpper) cb.plug_settings)
          cb.day_indicator cb.rotor_data cb.reflector ++
        rotor_encode (substitute (mi.map Char.toUpper) cb.plug_settings)
          ii cb.rotor_data cb.reflector ++
        rotor_encode (substitute (m.map Char.toUpper) cb.plug_settings)
          mi cb.rotor_data cb.reflector := rfl

/-- C2 (amended): the framed round trip returns the UPPER-CASED plaintext:
for well-formed codebook data (each rotor wiring a permutation of the 26
uppercase letters, reflector a 26-letter involutive table, well-formed plug
pairs) and uppercase indicator strings of length equal to the rotor count,
`decodeFramed(encodeFramed(m, ii, mi, day), day) = upper(m)` — equal to the
plaintext exactly when the plaintext is already uppercase (see the
counterexample for a lower-case plaintext).  The frame is
prefix1 ‖ prefix2 ‖ body with no delimiter, and decoding consumes the first
r characters under the day key, the next r under the recovered
indicator-indicator, and the rest under the recovered message-indicator. -/
theorem C2_framed_roundtrip_toUpper (m ii mi : List Char) (cb : CodebookData)
    (hrd : ∀ p ∈ cb.rotor_data, WFSequence p.1)
    (hrefl : WFReflector cb.reflector)
    (hplugs : WFPlugs cb.plug_settings)
    (hii : ∀ c ∈ ii, c ∈ alphabet) (hiilen : ii.length = cb.rotor_data.length)
    (hmi : ∀ c ∈ mi, c ∈ alphabet) (hmilen : mi.length = cb.rotor_data.length)
    (hm : ∀ c ∈ m, c ∈ alphabet ∨ c ∈ lowerAlphabet) :
    _decode (_encode m ii mi cb) cb = m.map Char.toUpper := by
  have hPok := WFPlugs_pairsOk hplugs
  have hSii_mem : ∀ c ∈ substitute ii cb.plug_settings, c ∈ alphabet :=
    substitute_mem_alphabet hplugs hii
  have hSmi_mem : ∀ c ∈ substitute mi cb.plug_settings, c ∈ alphabet :=
    substitute_mem_alphabet hplugs hmi
  have hup : ∀ c ∈ m.map Char.toUpper, c ∈ alphabet := map_toUpper_mem_alphabet hm
  have hSm_mem : ∀ c ∈ substitute (m.map Char.toUpper) cb.plug_settings, c ∈ alphabet :=
    substitute_mem_alphabet hplugs hup
  rw [_encode_eq, _decode_eq, map_toUpper_eq_self hii, map_toUpper_eq_self hmi]
  set p1 := rotor_encode (substitute ii cb.plug_settings) cb.day_indicator
    cb.rotor_data cb.reflector with hp1
  set p2 := rotor_encode (substitute mi cb.plug_settings) ii cb.rotor_data cb.reflector with hp2
  set body := rotor_encode (substitute (m.map Char.toUpper) cb.plug_settings) mi
    cb.rotor_data cb.reflector with hbody
  have hp1mem : ∀ c ∈ p1, c ∈ alphabet := by
    rw [hp1]
    exact rotor_encode_mem_keyed hrd hrefl _ hSii_mem
  have hp2mem : ∀ c ∈ p2, c ∈ alphabet := by
    rw [hp2]
    exact rotor_encode_mem_keyed hrd hrefl _ hSmi_mem
  have hbodymem : ∀ c ∈ body, c ∈ alphabet := by
    rw [hbody]
    exact rotor_encode_mem_keyed hrd hrefl _ hSm_mem
  have hframe_mem : ∀ c ∈ p1 ++ p2 ++ body, c ∈ alphabet := by
    intro c hc
    rcases List.mem_append.mp hc with h | h
    · rcases List.mem_append.mp h with h' | h'
      · exact hp1mem c h'
      · exact hp2mem c h'
    · exact hbodymem c h
  rw [map_toUpper_eq_self hframe_mem]
  have hlp1 : p1.length = cb.rotor_data.length := by
    rw [hp1, rotor_encode_len, substitute_length]
    exact hiilen
  have hlp2 : p2.length = cb.rotor_data.length := by
    rw [hp2, rotor_encode_len, substitute_length]
    exact hmilen
  have htake : (p1 ++ p2 ++ body).take cb.rotor_data.length = p1 := by
    rw [List.append_assoc]
    exact List.take_left' hlp1
  have hdrop1 : (p1 ++ p2 ++ body).drop cb.rotor_data.length = p2 ++ body := by
    rw [List.append_assoc]
    exact List.drop_left' hlp1
  have htake2 : ((p1 ++ p2 ++ body).drop cb.rotor_data.length).take cb.rotor_data.length = p2 := by
    rw [hdrop1]
    exact List.take_left' hlp2
  have hdrop2 : (p1 ++ p2 ++ body).drop (2 * cb.rotor_data.length) = body := by
    have h12 : (p1 ++ p2).length = 2 * cb.rotor_data.length := by
      rw [List.length_append, hlp1, hlp2]
      ring
    exact List.drop_left' h12
  rw [htake, htake2, hdrop2]
  have hii' : substitute (rotor_encode p1 cb.day_indicator cb.rotor_data cb.reflector)
      cb.plug_settings = ii := by
    rw [hp1, rotor_encode_roundtrip hrd hrefl _ hSii_mem, substitute_substitute hPok]
  rw [hii']
  have hmi' : substitute (rotor_encode p2 ii cb.rotor_data cb.reflector)
      cb.plug_settings = mi := by
    rw [hp2, rotor_encode_roundtrip hrd hrefl _ hSmi_mem, substitute_substitute hPok]
  rw [hmi']
  rw [hbody, rotor_encode_roundtrip hrd hrefl _ hSm_mem, substitute_substitute hPok]

set_option maxRecDepth 4000 in
/-- C2 counterexample: with one identity rotor, the reversing reflector, no
plugs and indicators `"A"`, the framed round trip of the valid plaintext
`"a"` returns `"A"`, not `"a"`: the views pipeline upper-cases, so
`decodeFramed(encodeFramed(plaintext, ...)) == plaintext` fails for
lower-case plaintexts. -/
theorem C2_counterexample :
    _decode (_encode ['a'] ['A'] ['A'] identityCodebook) identityCodebook = ['A'] ∧
    (['A'] : List Char) ≠ ['a'] := by
  refine ⟨by decide, by decide⟩

/-- C2 witness: the amended round trip applied to the plaintext `"B"` with
indicators `"A"`, `"A"` under the identity codebook. -/
theorem C2_witness :
    _decode (_encode ['B'] ['A'] ['A'] identityCodebook) identityCodebook =
      ['B'].map Char.toUpper :=
  C2_framed_roundtrip_toUpper ['B'] ['A'] ['A'] identityCodebook (by decide) (by decide)
    (by decide) (by decide) (by decide) (by decide) (by decide) (by decide)
